import Mathlib

/-!
Verification of the s3put storage/copy core against its specification.

The Go sources are embedded shallowly: Go strings become `List Char`,
the `path/filepath` and `strings` helpers used by the code are translated
function by function, fallible calls take their outcome as an explicit
oracle argument, and the concurrent copy engine becomes a labelled
transition system over an explicit state.
-/

namespace S3Put

/-- Go strings, embedded as character lists. -/
abbrev GoStr := List Char

/-- Embedding of Go `strings.HasPrefix s pre`. -/
def goHasPrefix (s pre : GoStr) : Bool :=
  pre.isPrefixOf s

/-- Embedding of Go `strings.TrimPrefix s pre`: drops `pre` when it is a
prefix of `s`, otherwise returns `s` unchanged. -/
def goTrimPrefix (s pre : GoStr) : GoStr :=
  if goHasPrefix s pre then s.drop pre.length else s

/-- Splitting a string at every `/`, as `strings.Split s "/"` does; always
returns at least one (possibly empty) component. -/
def splitSlash : GoStr → List GoStr
  | [] => [[]]
  | c :: rest =>
    if c = '/' then [] :: splitSlash rest
    else
      match splitSlash rest with
      | r :: rs => (c :: r) :: rs
      | [] => [[c]]

/-- The `..` path component. -/
def dotdot : GoStr := ['.', '.']

/-- One step of `filepath.Clean`'s element processing: push a raw component
onto the stack of kept components (head = most recent), eliminating empty
and `.` components, resolving `..` against the stack, and dropping `..`
applied at a rooted path's root. -/
def pushComp (rooted : Bool) (out : List GoStr) (c : GoStr) : List GoStr :=
  if c = [] ∨ c = ['.'] then out
  else if c = dotdot then
    match out with
    | [] => if rooted then [] else [dotdot]
    | d :: rest => if d = dotdot then dotdot :: d :: rest else rest
  else c :: out

/-- Go `strings.Join parts "/"`. -/
def interSlash : List GoStr → GoStr
  | [] => []
  | [c] => c
  | c :: rest => c ++ '/' :: interSlash rest

/-- Whether a path is rooted (begins with a path separator). -/
def isRooted (p : GoStr) : Bool :=
  match p with
  | c :: _ => c = '/'
  | [] => false

/-- The component stack `filepath.Clean` keeps for `p` (head = last kept
component). -/
def cleanStack (rooted : Bool) (p : GoStr) : List GoStr :=
  (splitSlash p).foldl (pushComp rooted) []

/-- Rendering the kept components back into a path string, restoring the
root and producing `.` for an empty relative result. -/
def renderPath (rooted : Bool) (out : List GoStr) : GoStr :=
  if rooted then '/' :: interSlash out
  else if interSlash out = [] then ['.'] else interSlash out

/-- Embedding of Go `filepath.Clean` (slash-separated paths): shortest
equivalent path, with `//`, `.` and resolvable `..` removed. -/
def clean (p : GoStr) : GoStr :=
  renderPath (isRooted p) ((cleanStack (isRooted p) p).reverse)

/-- Embedding of Go `filepath.Join(a, b)`: starting from the first
non-empty element, the elements are joined with `/` and the result is
Cleaned; all-empty input yields the empty string. -/
def goJoin2 (a b : GoStr) : GoStr :=
  if a ≠ [] then clean (a ++ '/' :: b)
  else if b ≠ [] then clean b
  else []

/-- Embedding of Go `filepath.Split p`: everything up to and including the
final separator, and the remainder. -/
def goSplit (p : GoStr) : GoStr × GoStr :=
  ((p.reverse.dropWhile (fun c => c ≠ '/')).reverse,
   (p.reverse.takeWhile (fun c => c ≠ '/')).reverse)

/-- Embedding of Go `filepath.Dir p`: the Cleaned directory part of the
split. -/
def goDir (p : GoStr) : GoStr :=
  clean (goSplit p).1

/-- Embedding of Go `filepath.Base p`: the last element of the path after
trailing separators are removed (`['/']` for an all-separator path, `.`
for the empty one). -/
def goBase (p : GoStr) : GoStr :=
  if p = [] then ['.']
  else if ((p.reverse.dropWhile (fun c => c = '/')).takeWhile (fun c => c ≠ '/')).reverse = []
    then ['/']
    else ((p.reverse.dropWhile (fun c => c = '/')).takeWhile (fun c => c ≠ '/')).reverse

/-- Embedding of Go `filepath.Abs p` with the working directory `cwd`
passed explicitly: absolute paths are Cleaned, relative ones joined onto
`cwd`. -/
def goAbs (cwd p : GoStr) : GoStr :=
  if isRooted p then clean p else goJoin2 cwd p

example : clean "/a//b/./c/..".toList = "/a/b".toList := by decide
example : clean "".toList = ".".toList := by decide
example : clean "/..".toList = "/".toList := by decide
example : clean "../../x".toList = "../../x".toList := by decide
example : goJoin2 "backup".toList "/a.txt".toList = "backup/a.txt".toList := by decide
example : goJoin2 "".toList "a.txt".toList = "a.txt".toList := by decide
example : goSplit "/data/a.txt".toList = ("/data/".toList, "a.txt".toList) := by decide
example : goDir "/data/a.txt".toList = "/data".toList := by decide
example : goBase "/data/a.txt".toList = "a.txt".toList := by decide
example : goTrimPrefix "/data/a.txt".toList "/data".toList = "/a.txt".toList := by decide

/-- One transferable unit (`Item` of part_003 24-29): enumeration root,
backend-native path, advisory size. The owned content stream is tracked
separately, by the effect and stream models below. -/
structure Item where
  Prefix : GoStr
  Path : GoStr
  Size : Int
deriving DecidableEq

/-- The destination path exactly as the spec words it: the item's `Path`
with its `Prefix` removed, re-joined under the destination's own
configured prefix (spec section 4.1, PutFile). -/
def specDestPath (dstPre : GoStr) (item : Item) : GoStr :=
  goJoin2 dstPre (goTrimPrefix item.Path item.Prefix)

/-- The key `S3Storage.PutFile` computes (part_003 116-117):
`strings.TrimPrefix` then `filepath.Join` under the bucket prefix. -/
def s3PutKey (pre : GoStr) (item : Item) : GoStr :=
  goJoin2 pre (goTrimPrefix item.Path item.Prefix)

/-- The object name `GcsStorage.PutFile` computes (part_003 188-189). -/
def gcsObjectName (pre : GoStr) (item : Item) : GoStr :=
  goJoin2 pre (goTrimPrefix item.Path item.Prefix)

/-- Externally visible actions a `PutFile` implementation performs, in
program order. -/
inductive PutEffect where
  | s3Put (key : GoStr)
  | gcsInsert (name : GoStr)
  | mkdirAll (dir : GoStr)
  | createFile (path : GoStr)
  | copyContent
  | closeTarget
  | closeStream
deriving DecidableEq

/-- How a `PutFile` call ends: a nil return, a returned error, or
`log.Fatalf` (the call never returns and the process dies). -/
inductive PutResult where
  | ok
  | err (msg : GoStr)
  | fatal (msg : GoStr)
deriving DecidableEq

/-- Embedding of `S3Storage.PutFile` (part_003 114-123). The oracle
`putErr` is the outcome of `bucket.PutReader`; `defer item.Close()`
closes the item's stream on every return path, hence `closeStream` is
the final effect of both outcomes. -/
def s3PutFile (pre : GoStr) (item : Item) (putErr : Option GoStr) :
    PutResult × List PutEffect :=
  match putErr with
  | some e => (PutResult.err e, [PutEffect.s3Put (s3PutKey pre item), PutEffect.closeStream])
  | none => (PutResult.ok, [PutEffect.s3Put (s3PutKey pre item), PutEffect.closeStream])

/-- Embedding of `GcsStorage.PutFile` (part_003 187-194). The oracle
`insertErr` is the outcome of `Objects.Insert(...).Media(item).Do()`.
There is no `defer item.Close()` in the source, so no `closeStream`
effect is ever emitted; a failed insert runs `log.Fatalf`, which kills
the process instead of returning. -/
def gcsPutFile (pre : GoStr) (item : Item) (insertErr : Option GoStr) :
    PutResult × List PutEffect :=
  match insertErr with
  | some e => (PutResult.fatal e, [PutEffect.gcsInsert (gcsObjectName pre item)])
  | none => (PutResult.ok, [PutEffect.gcsInsert (gcsObjectName pre item)])

/-- Embedding of `LocalStorage.PutFile` (part_003 249-268, identical to
storage.go 361-380). Oracles give the outcomes of `os.MkdirAll` and
`os.Create`; `copyFails` says whether `io.Copy` fails, a result the
source discards. Deferred closes run last in LIFO order. -/
def localPutFile (root : GoStr) (item : Item)
    (mkdirErr createErr : Option GoStr) (copyFails : Bool) :
    PutResult × List PutEffect :=
  let itempath := goTrimPrefix item.Path item.Prefix
  let dirname := goJoin2 root (goSplit itempath).1
  let fname := (goSplit itempath).2
  match mkdirErr with
  | some e => (PutResult.err e, [PutEffect.mkdirAll dirname, PutEffect.closeStream])
  | none =>
    match createErr with
    | some e =>
      (PutResult.err e,
       [PutEffect.mkdirAll dirname, PutEffect.createFile (goJoin2 dirname fname),
        PutEffect.closeStream])
    | none =>
      (PutResult.ok,
       [PutEffect.mkdirAll dirname, PutEffect.createFile (goJoin2 dirname fname),
        PutEffect.copyContent, PutEffect.closeTarget, PutEffect.closeStream])

/-- The path `LocalStorage.PutFile` creates the destination file at:
`filepath.Join(filepath.Join(s.Prefix, dirname), fname)` of the split
relative path. -/
def localWrittenPath (root : GoStr) (item : Item) : GoStr :=
  let itempath := goTrimPrefix item.Path item.Prefix
  goJoin2 (goJoin2 root (goSplit itempath).1) (goSplit itempath).2

/-- One object record of an S3 `ListResp` page. -/
structure S3Obj where
  key : GoStr
  size : Int
deriving DecidableEq

/-- An S3 `ListResp`: the page contents and the truncation flag. -/
structure S3Page where
  contents : List S3Obj
  isTruncated : Bool
deriving DecidableEq

/-- An item as published on the enumeration channel: the stream field is
the reader obtained for it (`none` embeds a nil `ReadCloser`). -/
structure StreamItem where
  Prefix : GoStr
  Path : GoStr
  Size : Int
  stream : Option Nat
deriving DecidableEq

/-- Why an object-store enumeration loop stopped. -/
inductive ListExit where
  | noMorePages
  | listError
  | outOfFuel
deriving DecidableEq

/-- Inner page loop of `S3Storage.ListFiles` (part_003 92-105): for each
listed object `GetReader` is tried; on error the object is logged and
skipped (`continue`, so neither a send nor a marker update happens),
otherwise the item is sent and the marker advances to its key. Returns
the sent items and the final marker. -/
def s3PageItems (pre : GoStr) (getReader : GoStr → Option Nat)
    (marker : GoStr) : List S3Obj → List StreamItem × GoStr
  | [] => ([], marker)
  | obj :: rest =>
    match getReader obj.key with
    | none => s3PageItems pre getReader marker rest
    | some rc =>
      let r := s3PageItems pre getReader obj.key rest
      (⟨pre, obj.key, obj.size, some rc⟩ :: r.1, r.2)

/-- Embedding of the paging loop of `S3Storage.ListFiles`
(part_003 81-112). `list` is the bucket's reply to
`List(s.prefix, "", marker, 1000)` as a function of the marker; `fuel`
bounds the number of requests the model unfolds. Returns the items
sent, the marker used by each request in order, and why the loop
stopped: a list error logs and closes the channel short, a page with
`IsTruncated` false ends the enumeration normally. -/
def s3ListLoop (list : GoStr → Except GoStr S3Page)
    (getReader : GoStr → Option Nat) (pre : GoStr) :
    Nat → GoStr → List StreamItem × List GoStr × ListExit
  | 0, _ => ([], [], ListExit.outOfFuel)
  | fuel + 1, marker =>
    match list marker with
    | Except.error _ => ([], [marker], ListExit.listError)
    | Except.ok resp =>
      let pg := s3PageItems pre getReader marker resp.contents
      if resp.isTruncated then
        let r := s3ListLoop list getReader pre fuel pg.2
        (pg.1 ++ r.1, marker :: r.2.1, r.2.2)
      else (pg.1, [marker], ListExit.noMorePages)

/-- `S3Storage.ListFiles` (part_003 81-112): the loop starts with an
empty marker. -/
def s3ListFiles (list : GoStr → Except GoStr S3Page)
    (getReader : GoStr → Option Nat) (pre : GoStr) (fuel : Nat) :
    List StreamItem × List GoStr × ListExit :=
  s3ListLoop list getReader pre fuel []

/-- Inner page loop of the older `S3Storage.ListFiles`
(storage.go 257-269): a `GetReader` error is logged but the item is sent
anyway, carrying the nil reader, and the marker advances on every
object. The `Size` of sent items is never set in this version. -/
def s3PageItemsV2 (pre : GoStr) (getReader : GoStr → Option Nat) :
    List S3Obj → List StreamItem
  | [] => []
  | obj :: rest => ⟨pre, obj.key, 0, getReader obj.key⟩ :: s3PageItemsV2 pre getReader rest

/-- Embedding of the paging loop of the older `S3Storage.ListFiles`
(storage.go 246-276). -/
def s3ListLoopV2 (list : GoStr → Except GoStr S3Page)
    (getReader : GoStr → Option Nat) (pre : GoStr) :
    Nat → GoStr → List StreamItem × List GoStr × ListExit
  | 0, _ => ([], [], ListExit.outOfFuel)
  | fuel + 1, marker =>
    match list marker with
    | Except.error _ => ([], [marker], ListExit.listError)
    | Except.ok resp =>
      let items := s3PageItemsV2 pre getReader resp.contents
      let m2 := resp.contents.foldl (fun _ obj => obj.key) marker
      if resp.isTruncated then
        let r := s3ListLoopV2 list getReader pre fuel m2
        (items ++ r.1, marker :: r.2.1, r.2.2)
      else (items, [marker], ListExit.noMorePages)

/-- `S3Storage.ListFiles` of storage.go 246-276, from the empty marker. -/
def s3ListFilesV2 (list : GoStr → Except GoStr S3Page)
    (getReader : GoStr → Option Nat) (pre : GoStr) (fuel : Nat) :
    List StreamItem × List GoStr × ListExit :=
  s3ListLoopV2 list getReader pre fuel []

/-- One object record of a GCS objects listing. -/
structure GcsObj where
  name : GoStr
  size : Int
  mediaLink : GoStr
deriving DecidableEq

/-- A GCS `Objects.List` reply. The API reports continuation through
`nextPageToken`; the source never reads it. -/
structure GcsObjects where
  items : List GcsObj
  nextPageToken : GoStr
deriving DecidableEq

/-- Per-object loop of `GcsStorage.ListFiles` (part_003 170-182): fetch
each object's media link, log and skip on error, else send. -/
def gcsPageItems (pre : GoStr) (get : GoStr → Option Nat) :
    List GcsObj → List StreamItem
  | [] => []
  | obj :: rest =>
    match get obj.mediaLink with
    | none => gcsPageItems pre get rest
    | some rc => ⟨pre, obj.name, obj.size, some rc⟩ :: gcsPageItems pre get rest

/-- Embedding of `GcsStorage.ListFiles` (part_003 160-185): a single
`Objects.List(bucket).Prefix(prefix).Do()` request; a listing error logs
and closes the channel; there is no pagination loop, so the reply's
`nextPageToken` is ignored. -/
def gcsListFiles (pre : GoStr) (doList : Except GoStr GcsObjects)
    (get : GoStr → Option Nat) : List StreamItem :=
  match doList with
  | Except.error _ => []
  | Except.ok objs => gcsPageItems pre get objs.items

/-- A Go runtime panic observable in the embedded fragment. -/
inductive GoPanic where
  | nilPointerDeref
deriving DecidableEq

/-- An item of the v1 tool (s3put.go 19-23): no stream field. -/
structure BItem where
  Prefix : GoStr
  Path : GoStr
deriving DecidableEq

/-- Embedding of `listBucketFiles` (s3put.go 109-126): one list request;
a `bucket.List` error is only logged, execution falls through to
`range resp.Contents` with `resp` nil — a nil-pointer dereference that
panics the process. On success every key becomes an item. -/
def listBucketFiles (getPre : GoStr) (resp : Option S3Page) (err : Option GoStr) :
    Except GoPanic (List BItem) :=
  match resp with
  | none => Except.error GoPanic.nilPointerDeref
  | some r => Except.ok (r.contents.map (fun obj => ⟨getPre, obj.key⟩))

/-- A file-system subtree as `os.Stat` and `filepath.Walk` observe it:
files carry their size and whether `os.Open` succeeds on them;
directory entries are listed in walk (lexical) order. -/
inductive FsTree where
  | file (size : Int) (openable : Bool)
  | dir (entries : List (GoStr × FsTree))

mutual

/-- The walk function of `LocalStorage.ListFiles` (part_003 229-244):
directories are skipped, each file is opened — on error logged and
skipped — and sent with the walk root as its prefix and `Size` unset. -/
def walkVisit (pre : GoStr) (path : GoStr) : FsTree → List StreamItem
  | FsTree.file _ op => if op then [⟨pre, path, 0, some 0⟩] else []
  | FsTree.dir entries => walkList pre path entries

/-- Walking a directory's entries in order, each at
`filepath.Join(path, name)`. -/
def walkList (pre : GoStr) (path : GoStr) : List (GoStr × FsTree) → List StreamItem
  | [] => []
  | (name, t) :: rest => walkVisit pre (goJoin2 path name) t ++ walkList pre path rest

end

/-- Embedding of `LocalStorage.ListFiles` (part_003 200-247).
`node` is what the file system holds at the absolute root (`none`:
`os.Open` or the `Stat` of the root fails, which logs and closes the
channel). A non-directory root sends exactly one item whose prefix is
`filepath.Dir` of the root and whose `Size` is the stat size; a
directory root is walked. -/
def localListFiles (cwd root : GoStr) (node : Option FsTree) : List StreamItem :=
  let newpre := goAbs cwd root
  match node with
  | none => []
  | some (FsTree.file sz _) => [⟨goDir newpre, newpre, sz, some 0⟩]
  | some (FsTree.dir entries) => walkList newpre newpre entries

/-- Outcome of one `PutFile` call as the copy engine observes it. -/
inductive PutOutcome where
  | ok
  | retErr
  | fatal
deriving DecidableEq

/-- State of one run of the copy engine over a finite, already-closed
item stream: items not yet received from the channel, workers blocked on
the channel, items whose `PutFile` call is executing, workers that left
their loop, the `PutFile` invocation log in order, and whether the
process was terminated. -/
structure EngineState where
  pending : List Nat
  waiting : Nat
  inflight : List Nat
  exited : Nat
  attempted : List Nat
  aborted : Bool
deriving DecidableEq

/-- `CopyItems` spawns its workers with the whole stream still queued. -/
def initState (n : Nat) (stream : List Nat) : EngineState :=
  ⟨stream, n, [], 0, [], false⟩

/-- Modelled from the spec: the copy engine's small-step semantics. The
worker-pool shape — `n` workers all ranging over one shared channel,
calling the destination's `PutFile` per item and returning after
`wg.Wait()` — is the 3-argument `CopyItems` of storage.go 382-396 /
part_003 270-284. The failure policy of the 4-argument
`CopyItems(dst, items, concurrency, continueOnError)` called by the v2
main (part_000 82) is absent from the source files, so its branches
follow spec sections 4.2 and 7: a returned write error is logged and,
when `continueOnError` is false, promoted to a fatal, run-terminating
condition; a `fatal` outcome (the GCS destination's `log.Fatalf`) kills
the process from inside `PutFile` in every mode. An aborted state has no
outgoing step: termination is immediate, with no drain of the queue. -/
inductive EngineStep (coe : Bool) (outcome : Nat → PutOutcome) :
    EngineState → EngineState → Prop
  | recv (i : Nat) (rest : List Nat) (s : EngineState) :
      s.aborted = false → s.pending = i :: rest → 0 < s.waiting →
      EngineStep coe outcome s
        ⟨rest, s.waiting - 1, i :: s.inflight, s.exited, s.attempted ++ [i], false⟩
  | finishOk (i : Nat) (l1 l2 : List Nat) (s : EngineState) :
      s.aborted = false → s.inflight = l1 ++ i :: l2 → outcome i = PutOutcome.ok →
      EngineStep coe outcome s
        ⟨s.pending, s.waiting + 1, l1 ++ l2, s.exited, s.attempted, false⟩
  | finishErrContinue (i : Nat) (l1 l2 : List Nat) (s : EngineState) :
      s.aborted = false → s.inflight = l1 ++ i :: l2 → outcome i = PutOutcome.retErr →
      coe = true →
      EngineStep coe outcome s
        ⟨s.pending, s.waiting + 1, l1 ++ l2, s.exited, s.attempted, false⟩
  | finishErrAbort (i : Nat) (l1 l2 : List Nat) (s : EngineState) :
      s.aborted = false → s.inflight = l1 ++ i :: l2 → outcome i = PutOutcome.retErr →
      coe = false →
      EngineStep coe outcome s
        ⟨s.pending, s.waiting, l1 ++ l2, s.exited, s.attempted, true⟩
  | finishFatal (i : Nat) (l1 l2 : List Nat) (s : EngineState) :
      s.aborted = false → s.inflight = l1 ++ i :: l2 → outcome i = PutOutcome.fatal →
      EngineStep coe outcome s
        ⟨s.pending, s.waiting, l1 ++ l2, s.exited, s.attempted, true⟩
  | exit (s : EngineState) :
      s.aborted = false → s.pending = [] → 0 < s.waiting →
      EngineStep coe outcome s
        ⟨[], s.waiting - 1, s.inflight, s.exited + 1, s.attempted, false⟩

/-- States one run of `CopyItems` with `n` workers over `stream` can
reach. -/
inductive EngineReach (coe : Bool) (outcome : Nat → PutOutcome) (n : Nat)
    (stream : List Nat) : EngineState → Prop
  | init : EngineReach coe outcome n stream (initState n stream)
  | step {s s' : EngineState} : EngineReach coe outcome n stream s →
      EngineStep coe outcome s s' → EngineReach coe outcome n stream s'

/-- A state no step leaves: the run is over (`wg.Wait` has returned, or
the process is dead). -/
def Stuck (coe : Bool) (outcome : Nat → PutOutcome) (s : EngineState) : Prop :=
  ∀ s', ¬ EngineStep coe outcome s s'

/-- Every step strictly decreases this bound, so every run is finite. -/
def engineMeasure (s : EngineState) : Nat :=
  3 * s.pending.length + 2 * s.inflight.length + s.waiting

/-- A component `filepath.Clean` may keep: non-empty, not `.`, and free of
separators. -/
def NormalComp (c : GoStr) : Prop := c ≠ [] ∧ c ≠ ['.'] ∧ '/' ∉ c

/-- Shape invariant of `filepath.Clean`'s component stack (head = most
recent): named components on top of a run of `..` components, the latter
absent for rooted paths. -/
def NormalStack (rooted : Bool) (s : List GoStr) : Prop :=
  ∃ names dots : List GoStr, s = names ++ dots ∧
    (∀ c ∈ names, NormalComp c ∧ c ≠ dotdot) ∧
    (∀ c ∈ dots, c = dotdot) ∧ (rooted = true → dots = [])

theorem splitSlash_ne_nil (p : GoStr) : splitSlash p ≠ [] := by
  induction p with
  | nil => simp [splitSlash]
  | cons c rest ih =>
    simp only [splitSlash]
    split
    · simp
    · cases h : splitSlash rest with
      | nil => exact absurd h ih
      | cons r rs => simp

theorem splitSlash_append (a b : GoStr) :
    splitSlash (a ++ '/' :: b) = splitSlash a ++ splitSlash b := by
  induction a with
  | nil => simp [splitSlash]
  | cons c rest ih =>
    by_cases hc : c = '/'
    · show splitSlash (c :: (rest ++ '/' :: b)) = splitSlash (c :: rest) ++ splitSlash b
      simp only [splitSlash, if_pos hc, ih, List.cons_append]
    · cases h : splitSlash rest with
      | nil => exact absurd h (splitSlash_ne_nil rest)
      | cons r rs =>
        show splitSlash (c :: (rest ++ '/' :: b)) = splitSlash (c :: rest) ++ splitSlash b
        simp only [splitSlash, if_neg hc, ih, h, List.cons_append]

theorem splitSlash_no_slash (p : GoStr) : ∀ c ∈ splitSlash p, '/' ∉ c := by
  induction p with
  | nil =>
    intro c hc
    simp only [splitSlash, List.mem_singleton] at hc
    subst hc
    simp
  | cons a rest ih =>
    intro c hc
    simp only [splitSlash] at hc
    by_cases ha : a = '/'
    · rw [if_pos ha] at hc
      rcases List.mem_cons.mp hc with h | h
      · subst h; simp
      · exact ih c h
    · rw [if_neg ha] at hc
      cases hs : splitSlash rest with
      | nil => exact absurd hs (splitSlash_ne_nil rest)
      | cons r rs =>
        rw [hs] at hc
        rcases List.mem_cons.mp hc with h | h
        · subst h
          intro hmem
          rcases List.mem_cons.mp hmem with h1 | h1
          · exact ha h1.symm
          · exact ih r (by rw [hs]; exact List.mem_cons_self r rs) h1
        · exact ih c (by rw [hs]; exact List.mem_cons.mpr (Or.inr h))

theorem splitSlash_single (c : GoStr) (h : '/' ∉ c) : splitSlash c = [c] := by
  induction c with
  | nil => rfl
  | cons a rest ih =>
    have ha : ¬ a = '/' := by
      intro e
      exact h (by rw [e]; exact List.mem_cons_self _ _)
    have hr : '/' ∉ rest := fun hm => h (List.mem_cons.mpr (Or.inr hm))
    simp only [splitSlash, if_neg ha, ih hr]

theorem interSlash_cons_cons (c d : GoStr) (rs : List GoStr) :
    interSlash (c :: d :: rs) = c ++ '/' :: interSlash (d :: rs) := rfl

theorem splitSlash_interSlash (out : List GoStr) :
    out ≠ [] → (∀ c ∈ out, '/' ∉ c) → splitSlash (interSlash out) = out := by
  induction out with
  | nil => intro hne _; exact absurd rfl hne
  | cons c rest ih =>
    intro _ h
    cases rest with
    | nil => exact splitSlash_single c (h c (List.mem_cons_self _ _))
    | cons d rs =>
      rw [interSlash_cons_cons, splitSlash_append,
        splitSlash_single c (h c (List.mem_cons_self _ _)),
        ih (by simp) (fun x hx => h x (List.mem_cons.mpr (Or.inr hx)))]
      rfl

theorem splitSlash_cons_slash (s : GoStr) : splitSlash ('/' :: s) = [] :: splitSlash s := by
  simp [splitSlash]

theorem normalStack_nil (rooted : Bool) : NormalStack rooted [] :=
  ⟨[], [], rfl, by simp, by simp, fun _ => rfl⟩

theorem pushComp_nil_comp (rooted : Bool) (s : List GoStr) :
    pushComp rooted s [] = s := by
  simp [pushComp]

theorem pushComp_normal (rooted : Bool) (s : List GoStr) (c : GoStr)
    (hc : '/' ∉ c) (hs : NormalStack rooted s) :
    NormalStack rooted (pushComp rooted s c) := by
  rcases hs with ⟨names, dots, hse, hn, hd, hr⟩
  by_cases h1 : c = [] ∨ c = ['.']
  · unfold pushComp
    rw [if_pos h1]
    exact ⟨names, dots, hse, hn, hd, hr⟩
  · by_cases h2 : c = dotdot
    · subst h2
      unfold pushComp
      rw [if_neg h1, if_pos rfl]
      cases s with
      | nil =>
        show NormalStack rooted (if rooted = true then [] else [dotdot])
        cases rooted with
        | true => exact normalStack_nil true
        | false =>
          exact ⟨[], [dotdot], rfl, by simp, by simp, fun h => nomatch h⟩
      | cons d rest =>
        show NormalStack rooted (if d = dotdot then dotdot :: d :: rest else rest)
        by_cases hdd : d = dotdot
        · rw [if_pos hdd]
          cases names with
          | nil =>
            simp only [List.nil_append] at hse
            refine ⟨[], dotdot :: d :: rest, rfl, by simp, ?_, ?_⟩
            · intro x hx
              rcases List.mem_cons.mp hx with h | h
              · exact h
              · exact hd x (hse ▸ h)
            · intro h
              rw [hr h] at hse
              exact absurd hse (by simp)
          | cons nm ns =>
            simp only [List.cons_append, List.cons.injEq] at hse
            exact absurd (by rw [← hse.1]; exact hdd)
              (hn nm (List.mem_cons_self _ _)).2
        · rw [if_neg hdd]
          cases names with
          | nil =>
            simp only [List.nil_append] at hse
            exact absurd (hd d (hse ▸ List.mem_cons_self _ _)) hdd
          | cons nm ns =>
            simp only [List.cons_append, List.cons.injEq] at hse
            refine ⟨ns, dots, hse.2, ?_, hd, hr⟩
            intro x hx
            exact hn x (List.mem_cons.mpr (Or.inr hx))
    · unfold pushComp
      rw [if_neg h1, if_neg h2]
      refine ⟨c :: names, dots, by rw [hse]; rfl, ?_, hd, hr⟩
      intro x hx
      rcases List.mem_cons.mp hx with h | h
      · subst h
        push_neg at h1
        exact ⟨⟨h1.1, h1.2, hc⟩, h2⟩
      · exact hn x h

theorem foldl_pushComp_normal (rooted : Bool) (l : List GoStr)
    (hl : ∀ c ∈ l, '/' ∉ c) (s : List GoStr) (hs : NormalStack rooted s) :
    NormalStack rooted (l.foldl (pushComp rooted) s) := by
  induction l generalizing s with
  | nil => exact hs
  | cons c rest ih =>
    exact ih (fun x hx => hl x (List.mem_cons.mpr (Or.inr hx))) _
      (pushComp_normal rooted s c (hl c (List.mem_cons_self _ _)) hs)

theorem normalStack_cleanStack (rooted : Bool) (p : GoStr) :
    NormalStack rooted (cleanStack rooted p) :=
  foldl_pushComp_normal rooted (splitSlash p) (splitSlash_no_slash p) [] (normalStack_nil rooted)

theorem foldl_pushComp_names (rooted : Bool) (l : List GoStr)
    (hl : ∀ c ∈ l, NormalComp c ∧ c ≠ dotdot) (t : List GoStr) :
    l.foldl (pushComp rooted) t = l.reverse ++ t := by
  induction l generalizing t with
  | nil => simp
  | cons c rest ih =>
    have hc := hl c (List.mem_cons_self _ _)
    have hpush : pushComp rooted t c = c :: t := by
      rcases hc with ⟨⟨hne, hdot, _⟩, hdd⟩
      unfold pushComp
      rw [if_neg (by simp [hne, hdot]), if_neg hdd]
    rw [List.foldl_cons, hpush, ih (fun x hx => hl x (List.mem_cons.mpr (Or.inr hx)))]
    simp

theorem foldl_pushComp_dots (l : List GoStr) (hl : ∀ c ∈ l, c = dotdot)
    (t : List GoStr) (ht : ∀ c ∈ t, c = dotdot) :
    l.foldl (pushComp false) t = l.reverse ++ t := by
  induction l generalizing t with
  | nil => simp
  | cons c rest ih =>
    have hc : c = dotdot := hl c (List.mem_cons_self _ _)
    subst hc
    have hpush : pushComp false t dotdot = dotdot :: t := by
      cases t with
      | nil => rfl
      | cons d rest2 =>
        have hd2 : d = dotdot := ht d (List.mem_cons_self _ _)
        subst hd2
        unfold pushComp
        rw [if_neg (by simp [dotdot]), if_pos rfl]
        show (if dotdot = dotdot then dotdot :: dotdot :: rest2 else rest2) = dotdot :: dotdot :: rest2
        rw [if_pos rfl]
    have ht2 : ∀ x ∈ dotdot :: t, x = dotdot := by
      intro x hx
      rcases List.mem_cons.mp hx with h | h
      · exact h
      · exact ht x h
    rw [List.foldl_cons, hpush,
      ih (fun x hx => hl x (List.mem_cons.mpr (Or.inr hx))) (dotdot :: t) ht2]
    simp

theorem restack (rooted : Bool) (s : List GoStr) (hs : NormalStack rooted s) :
    s.reverse.foldl (pushComp rooted) [] = s := by
  rcases hs with ⟨names, dots, rfl, hn, hd, hr⟩
  rw [List.reverse_append, List.foldl_append]
  have stage1 : dots.reverse.foldl (pushComp rooted) [] = dots := by
    cases rooted with
    | false =>
      rw [foldl_pushComp_dots dots.reverse
        (fun c hc => hd c (List.mem_reverse.mp hc)) [] (by simp)]
      simp
    | true =>
      rw [hr rfl]
      simp
  rw [stage1, foldl_pushComp_names rooted names.reverse
    (fun c hc => hn c (List.mem_reverse.mp hc)) dots]
  simp

theorem normalStack_no_slash (rooted : Bool) (s : List GoStr)
    (hs : NormalStack rooted s) : ∀ c ∈ s, c ≠ [] ∧ '/' ∉ c := by
  rcases hs with ⟨names, dots, rfl, hn, hd, hr⟩
  intro c hc
  rcases List.mem_append.mp hc with h | h
  · exact ⟨(hn c h).1.1, (hn c h).1.2.2⟩
  · rw [hd c h]
    exact ⟨by simp [dotdot], by simp [dotdot]⟩

theorem interSlash_ne_nil (c : GoStr) (rest : List GoStr) (hc : c ≠ []) :
    interSlash (c :: rest) ≠ [] := by
  cases rest with
  | nil => simpa [interSlash] using hc
  | cons d rs =>
    rw [interSlash_cons_cons]
    cases c with
    | nil => simp
    | cons a l => simp

theorem isRooted_interSlash (c : GoStr) (rest : List GoStr) (hc : c ≠ [])
    (hs : '/' ∉ c) : isRooted (interSlash (c :: rest)) = false := by
  cases c with
  | nil => exact absurd rfl hc
  | cons a l =>
    have ha : ¬ a = '/' := fun e => hs (by rw [e]; exact List.mem_cons_self _ _)
    cases rest with
    | nil =>
      show isRooted (a :: l) = false
      simp [isRooted, ha]
    | cons d rs =>
      rw [interSlash_cons_cons]
      show isRooted (a :: (l ++ '/' :: interSlash (d :: rs))) = false
      simp [isRooted, ha]

theorem isRooted_append_left (a b : GoStr) (ha : a ≠ []) :
    isRooted (a ++ b) = isRooted a := by
  cases a with
  | nil => exact absurd rfl ha
  | cons c l => rfl

theorem cleanStack_renderPath (rooted : Bool) (out : List GoStr)
    (hs : NormalStack rooted out) :
    cleanStack rooted (renderPath rooted out.reverse) = out := by
  have hns : ∀ c ∈ out.reverse, c ≠ [] ∧ '/' ∉ c :=
    fun c hc => normalStack_no_slash rooted out hs c (List.mem_reverse.mp hc)
  unfold renderPath
  cases rooted with
  | true =>
    rw [if_pos rfl]
    show (splitSlash ('/' :: interSlash out.reverse)).foldl (pushComp true) [] = out
    rw [splitSlash_cons_slash]
    cases hrev : out.reverse with
    | nil =>
      have : out = [] := by simpa using congrArg List.reverse hrev
      subst this
      rfl
    | cons c rest =>
      rw [← hrev, splitSlash_interSlash out.reverse (by rw [hrev]; simp)
        (fun x hx => (hns x hx).2)]
      rw [List.foldl_cons, pushComp_nil_comp]
      exact restack true out hs
  | false =>
    rw [if_neg (by simp)]
    cases hrev : out.reverse with
    | nil =>
      have : out = [] := by simpa using congrArg List.reverse hrev
      subst this
      rfl
    | cons c rest =>
      have hcne : c ≠ [] := (hns c (by rw [hrev]; exact List.mem_cons_self _ _)).1
      have hne : interSlash out.reverse ≠ [] := by
        rw [hrev]
        exact interSlash_ne_nil c rest hcne
      rw [← hrev, if_neg hne]
      show (splitSlash (interSlash out.reverse)).foldl (pushComp false) [] = out
      rw [splitSlash_interSlash out.reverse (by rw [hrev]; simp)
        (fun x hx => (hns x hx).2)]
      exact restack false out hs

/-- Unfolding equation for `clean`, applied to a chosen argument. -/
theorem clean_def (q : GoStr) :
    clean q = renderPath (isRooted q) ((cleanStack (isRooted q) q).reverse) := rfl

theorem isRooted_clean (p : GoStr) : isRooted (clean p) = isRooted p := by
  rw [clean_def p]
  unfold renderPath
  cases hR : isRooted p with
  | true =>
    rw [if_pos rfl]
    rfl
  | false =>
    have hs : NormalStack false (cleanStack false p) := by
      have := normalStack_cleanStack (isRooted p) p
      rw [hR] at this
      exact this
    rw [if_neg (by simp)]
    cases hrev : (cleanStack false p).reverse with
    | nil => rfl
    | cons c rest =>
      have hc := normalStack_no_slash false (cleanStack false p) hs c
        (List.mem_reverse.mp (by rw [hrev]; exact List.mem_cons_self _ _))
      rw [if_neg (interSlash_ne_nil c rest hc.1)]
      exact isRooted_interSlash c rest hc.1 hc.2

theorem clean_ne_nil (p : GoStr) : clean p ≠ [] := by
  rw [clean_def p]
  unfold renderPath
  cases isRooted p with
  | true => simp
  | false =>
    rw [if_neg (by simp)]
    split
    · simp
    · assumption

theorem cleanStack_clean (p : GoStr) :
    cleanStack (isRooted p) (clean p) = cleanStack (isRooted p) p :=
  cleanStack_renderPath (isRooted p) (cleanStack (isRooted p) p)
    (normalStack_cleanStack (isRooted p) p)

theorem cleanStack_append_slash (rooted : Bool) (q f : GoStr) :
    cleanStack rooted (q ++ '/' :: f) =
      (splitSlash f).foldl (pushComp rooted) (cleanStack rooted q) := by
  show (splitSlash (q ++ '/' :: f)).foldl (pushComp rooted) [] = _
  rw [splitSlash_append, List.foldl_append]
  rfl

theorem clean_append (p f : GoStr) (hp : p ≠ []) :
    clean (clean p ++ '/' :: f) = clean (p ++ '/' :: f) := by
  have hroot1 : isRooted (clean p ++ '/' :: f) = isRooted p := by
    rw [isRooted_append_left _ _ (clean_ne_nil p), isRooted_clean]
  have hroot2 : isRooted (p ++ '/' :: f) = isRooted p := isRooted_append_left _ _ hp
  rw [clean_def (clean p ++ '/' :: f), clean_def (p ++ '/' :: f), hroot1, hroot2,
    cleanStack_append_slash, cleanStack_append_slash, cleanStack_clean]

theorem clean_idem (p : GoStr) : clean (clean p) = clean p := by
  rw [clean_def (clean p), isRooted_clean, cleanStack_clean]
  exact (clean_def p).symm

theorem clean_trailing_slash (p : GoStr) (hp : p ≠ []) :
    clean (p ++ ['/']) = clean p := by
  rw [clean_def (p ++ ['/']), clean_def p, isRooted_append_left _ _ hp]
  have hstack : cleanStack (isRooted p) (p ++ ['/']) = cleanStack (isRooted p) p := by
    have h0 : p ++ ['/'] = p ++ '/' :: ([] : GoStr) := rfl
    rw [h0, cleanStack_append_slash]
    rw [show splitSlash ([] : GoStr) = [[]] from rfl, List.foldl_cons,
      pushComp_nil_comp, List.foldl_nil]
  rw [hstack]

theorem clean_slash_collapse (x y : GoStr) :
    clean (x ++ '/' :: '/' :: y) = clean (x ++ '/' :: y) := by
  have hroot : isRooted (x ++ '/' :: '/' :: y) = isRooted (x ++ '/' :: y) := by
    cases x with
    | nil => rfl
    | cons a l => rfl
  rw [clean_def (x ++ '/' :: '/' :: y), clean_def (x ++ '/' :: y), hroot]
  have hstack : cleanStack (isRooted (x ++ '/' :: y)) (x ++ '/' :: '/' :: y) =
      cleanStack (isRooted (x ++ '/' :: y)) (x ++ '/' :: y) := by
    have h2 : x ++ '/' :: '/' :: y = x ++ '/' :: (('/' :: y) : GoStr) := rfl
    rw [h2, cleanStack_append_slash, cleanStack_append_slash, splitSlash_cons_slash,
      List.foldl_cons, pushComp_nil_comp]
  rw [hstack]

theorem goSplit_append (t : GoStr) : (goSplit t).1 ++ (goSplit t).2 = t := by
  show (t.reverse.dropWhile (fun c => c ≠ '/')).reverse ++
    (t.reverse.takeWhile (fun c => c ≠ '/')).reverse = t
  rw [← List.reverse_append, List.takeWhile_append_dropWhile, List.reverse_reverse]

theorem dropWhile_head_eq_slash (x : GoStr) (c : Char) (l : GoStr)
    (h : x.dropWhile (fun c => c ≠ '/') = c :: l) : c = '/' := by
  induction x with
  | nil => simp at h
  | cons a rest ih =>
    rw [List.dropWhile_cons] at h
    by_cases ha : a = '/'
    · rw [if_neg (by simp [ha])] at h
      exact ((List.cons.injEq _ _ _ _).mp h).1.symm.trans ha
    · rw [if_pos (by simp [ha])] at h
      exact ih h

theorem goSplit_fst_cases (t : GoStr) :
    (goSplit t).1 = [] ∨ ∃ d0, (goSplit t).1 = d0 ++ ['/'] := by
  cases h : t.reverse.dropWhile (fun c => c ≠ '/') with
  | nil =>
    left
    show (t.reverse.dropWhile (fun c => c ≠ '/')).reverse = []
    rw [h]
    rfl
  | cons c l =>
    right
    refine ⟨l.reverse, ?_⟩
    show (t.reverse.dropWhile (fun c => c ≠ '/')).reverse = l.reverse ++ ['/']
    rw [h, List.reverse_cons, dropWhile_head_eq_slash t.reverse c l h]

theorem goJoin2_of_left_ne (a b : GoStr) (ha : a ≠ []) :
    goJoin2 a b = clean (a ++ '/' :: b) := by
  unfold goJoin2
  rw [if_pos ha]

theorem goJoin2_nil_ne (b : GoStr) (hb : b ≠ []) : goJoin2 [] b = clean b := by
  unfold goJoin2
  rw [if_neg (by simp), if_pos hb]

theorem goJoin2_nil_right (a : GoStr) (ha : a ≠ []) : goJoin2 a [] = clean a := by
  rw [goJoin2_of_left_ne a [] ha]
  exact clean_trailing_slash a ha

theorem goJoin2_clean_left (a b : GoStr) (ha : a ≠ []) :
    goJoin2 (clean a) b = goJoin2 a b := by
  rw [goJoin2_of_left_ne (clean a) b (clean_ne_nil a), goJoin2_of_left_ne a b ha]
  exact clean_append a b ha

theorem join_join_nil (root f : GoStr) :
    goJoin2 (goJoin2 root []) f = goJoin2 root f := by
  by_cases hroot : root = []
  · subst hroot
    rfl
  · rw [goJoin2_nil_right root hroot, goJoin2_clean_left root f hroot]

theorem join_join_slash (root d0 f : GoStr) :
    goJoin2 (goJoin2 root (d0 ++ ['/'])) f = goJoin2 root (d0 ++ '/' :: f) := by
  by_cases hroot : root = []
  · subst hroot
    have h1 : d0 ++ ['/'] ≠ ([] : GoStr) := by simp
    rw [goJoin2_nil_ne _ h1, goJoin2_clean_left _ f h1, goJoin2_of_left_ne _ f h1,
      goJoin2_nil_ne _ (show d0 ++ '/' :: f ≠ ([] : GoStr) by simp)]
    have e1 : (d0 ++ ['/']) ++ '/' :: f = d0 ++ '/' :: '/' :: f := by simp
    rw [e1, clean_slash_collapse]
  · have h2 : root ++ '/' :: (d0 ++ ['/']) ≠ ([] : GoStr) := by simp
    rw [goJoin2_of_left_ne root _ hroot, goJoin2_clean_left _ f h2,
      goJoin2_of_left_ne _ f h2, goJoin2_of_left_ne root _ hroot]
    have e1 : (root ++ '/' :: (d0 ++ ['/'])) ++ '/' :: f =
        (root ++ '/' :: d0) ++ '/' :: '/' :: f := by simp
    have e2 : root ++ '/' :: (d0 ++ '/' :: f) = (root ++ '/' :: d0) ++ '/' :: f := by simp
    rw [e1, e2, clean_slash_collapse]

theorem goJoin2_split (root t : GoStr) :
    goJoin2 (goJoin2 root (goSplit t).1) (goSplit t).2 = goJoin2 root t := by
  rcases goSplit_fst_cases t with hd | ⟨d0, hd⟩
  · have ht : (goSplit t).2 = t := by
      have h := goSplit_append t
      rw [hd] at h
      simpa using h
    rw [hd, ht, join_join_nil]
  · have ht : t = d0 ++ '/' :: (goSplit t).2 := by
      have h := goSplit_append t
      rw [hd] at h
      conv_lhs => rw [← h]
      simp
    rw [hd, join_join_slash, ← ht]

theorem aborted_stuck (coe : Bool) (outcome : Nat → PutOutcome) (s : EngineState)
    (h : s.aborted = true) : Stuck coe outcome s := by
  intro s' hst
  cases hst <;> simp_all

theorem engineReach_attempted_pending (coe : Bool) (outcome : Nat → PutOutcome)
    (n : Nat) (stream : List Nat) (s : EngineState)
    (h : EngineReach coe outcome n stream s) :
    s.attempted ++ s.pending = stream := by
  induction h with
  | init => rfl
  | @step t s' h1 h2 ih =>
    cases h2 with
    | recv i rest u ha hp hw =>
      rw [hp] at ih
      show (t.attempted ++ [i]) ++ rest = stream
      rw [List.append_assoc]
      exact ih
    | finishOk i l1 l2 u ha hin hout => exact ih
    | finishErrContinue i l1 l2 u ha hin hout hcoe => exact ih
    | finishErrAbort i l1 l2 u ha hin hout hcoe => exact ih
    | finishFatal i l1 l2 u ha hin hout => exact ih
    | exit u ha hp hw =>
      rw [hp] at ih
      exact ih

theorem engineReach_workers (coe : Bool) (outcome : Nat → PutOutcome)
    (n : Nat) (stream : List Nat) (s : EngineState)
    (h : EngineReach coe outcome n stream s) :
    s.aborted = false → s.waiting + s.inflight.length + s.exited = n := by
  induction h with
  | init => intro _; simp [initState]
  | @step t s' h1 h2 ih =>
    cases h2 with
    | recv i rest u ha hp hw =>
      intro _
      have ih2 := ih ha
      show t.waiting - 1 + (i :: t.inflight).length + t.exited = n
      simp only [List.length_cons]
      omega
    | finishOk i l1 l2 u ha hin hout =>
      intro _
      have ih2 := ih ha
      rw [hin] at ih2
      simp only [List.length_append, List.length_cons] at ih2
      show t.waiting + 1 + (l1 ++ l2).length + t.exited = n
      simp only [List.length_append]
      omega
    | finishErrContinue i l1 l2 u ha hin hout hcoe =>
      intro _
      have ih2 := ih ha
      rw [hin] at ih2
      simp only [List.length_append, List.length_cons] at ih2
      show t.waiting + 1 + (l1 ++ l2).length + t.exited = n
      simp only [List.length_append]
      omega
    | finishErrAbort i l1 l2 u ha hin hout hcoe =>
      intro habs
      exact absurd habs (by simp)
    | finishFatal i l1 l2 u ha hin hout =>
      intro habs
      exact absurd habs (by simp)
    | exit u ha hp hw =>
      intro _
      have ih2 := ih ha
      show t.waiting - 1 + t.inflight.length + (t.exited + 1) = n
      omega

theorem engineReach_exited_pending (coe : Bool) (outcome : Nat → PutOutcome)
    (n : Nat) (stream : List Nat) (s : EngineState)
    (h : EngineReach coe outcome n stream s) :
    0 < s.exited → s.pending = [] := by
  induction h with
  | init => intro hx; exact absurd hx (by simp [initState])
  | @step t s' h1 h2 ih =>
    cases h2 with
    | recv i rest u ha hp hw =>
      intro hx
      rw [ih hx] at hp
      exact absurd hp (by simp)
    | finishOk i l1 l2 u ha hin hout => exact ih
    | finishErrContinue i l1 l2 u ha hin hout hcoe => exact ih
    | finishErrAbort i l1 l2 u ha hin hout hcoe => exact ih
    | finishFatal i l1 l2 u ha hin hout => exact ih
    | exit u ha hp hw => intro _; rfl

theorem engineReach_completed_ok (outcome : Nat → PutOutcome)
    (n : Nat) (stream : List Nat) (s : EngineState)
    (h : EngineReach false outcome n stream s) :
    s.aborted = false → ∀ i ∈ s.attempted, i ∉ s.inflight → outcome i = PutOutcome.ok := by
  induction h with
  | init => intro _ i hi _; exact absurd hi (by simp [initState])
  | @step t s' h1 h2 ih =>
    cases h2 with
    | recv i rest u ha hp hw =>
      intro _ j hj hnin
      have hji : j ≠ i := fun e => hnin (by rw [e]; exact List.mem_cons_self _ _)
      have hj2 : j ∈ t.attempted := by
        rcases List.mem_append.mp hj with h | h
        · exact h
        · exact absurd (List.mem_singleton.mp h) hji
      exact ih ha j hj2 (fun hmem => hnin (List.mem_cons.mpr (Or.inr hmem)))
    | finishOk i l1 l2 u ha hin hout =>
      intro _ j hj hnin
      by_cases hjold : j ∈ t.inflight
      · have hji : j = i := by
          rw [hin] at hjold
          rcases List.mem_append.mp hjold with h | h
          · exact absurd (List.mem_append.mpr (Or.inl h)) hnin
          · rcases List.mem_cons.mp h with h | h
            · exact h
            · exact absurd (List.mem_append.mpr (Or.inr h)) hnin
        rw [hji]
        exact hout
      · exact ih ha j hj hjold
    | finishErrContinue i l1 l2 u ha hin hout hcoe => exact absurd hcoe (by simp)
    | finishErrAbort i l1 l2 u ha hin hout hcoe =>
      intro habs
      exact absurd habs (by simp)
    | finishFatal i l1 l2 u ha hin hout =>
      intro habs
      exact absurd habs (by simp)
    | exit u ha hp hw =>
      intro _ j hj hnin
      exact ih ha j hj hnin

theorem engineReach_not_aborted (outcome : Nat → PutOutcome)
    (n : Nat) (stream : List Nat) (s : EngineState)
    (hfat : ∀ i, outcome i ≠ PutOutcome.fatal)
    (h : EngineReach true outcome n stream s) :
    s.aborted = false := by
  induction h with
  | init => rfl
  | @step t s' h1 h2 ih =>
    cases h2 with
    | recv i rest u ha hp hw => rfl
    | finishOk i l1 l2 u ha hin hout => rfl
    | finishErrContinue i l1 l2 u ha hin hout hcoe => rfl
    | finishErrAbort i l1 l2 u ha hin hout hcoe => exact absurd hcoe (by simp)
    | finishFatal i l1 l2 u ha hin hout => exact absurd hout (hfat i)
    | exit u ha hp hw => rfl

theorem engineStep_measure (coe : Bool) (outcome : Nat → PutOutcome)
    (s s' : EngineState) (h : EngineStep coe outcome s s') :
    engineMeasure s' < engineMeasure s := by
  cases h with
  | recv i rest u ha hp hw =>
    show 3 * rest.length + 2 * (i :: s.inflight).length + (s.waiting - 1) < engineMeasure s
    unfold engineMeasure
    rw [hp]
    simp only [List.length_cons]
    omega
  | finishOk i l1 l2 u ha hin hout =>
    show 3 * s.pending.length + 2 * (l1 ++ l2).length + (s.waiting + 1) < engineMeasure s
    unfold engineMeasure
    rw [hin]
    simp only [List.length_append, List.length_cons]
    omega
  | finishErrContinue i l1 l2 u ha hin hout hcoe =>
    show 3 * s.pending.length + 2 * (l1 ++ l2).length + (s.waiting + 1) < engineMeasure s
    unfold engineMeasure
    rw [hin]
    simp only [List.length_append, List.length_cons]
    omega
  | finishErrAbort i l1 l2 u ha hin hout hcoe =>
    show 3 * s.pending.length + 2 * (l1 ++ l2).length + s.waiting < engineMeasure s
    unfold engineMeasure
    rw [hin]
    simp only [List.length_append, List.length_cons]
    omega
  | finishFatal i l1 l2 u ha hin hout =>
    show 3 * s.pending.length + 2 * (l1 ++ l2).length + s.waiting < engineMeasure s
    unfold engineMeasure
    rw [hin]
    simp only [List.length_append, List.length_cons]
    omega
  | exit u ha hp hw =>
    show 3 * ([] : List Nat).length + 2 * s.inflight.length + (s.waiting - 1) < engineMeasure s
    unfold engineMeasure
    rw [hp]
    simp only [List.length_nil]
    omega

theorem engineStuck_shape (outcome : Nat → PutOutcome) (s : EngineState)
    (hfat : ∀ i, outcome i ≠ PutOutcome.fatal)
    (hab : s.aborted = false) (hstuck : Stuck true outcome s) :
    s.inflight = [] ∧ s.waiting = 0 := by
  constructor
  · cases hin : s.inflight with
    | nil => rfl
    | cons j l =>
      cases hout : outcome j with
      | ok =>
        exact absurd (EngineStep.finishOk j [] l s hab (by rw [hin]; rfl) hout)
          (hstuck _)
      | retErr =>
        exact absurd (EngineStep.finishErrContinue j [] l s hab (by rw [hin]; rfl) hout rfl)
          (hstuck _)
      | fatal => exact absurd hout (hfat j)
  · by_contra hw
    have hw2 : 0 < s.waiting := Nat.pos_of_ne_zero hw
    cases hp : s.pending with
    | nil => exact hstuck _ (EngineStep.exit s hab hp hw2)
    | cons i rest => exact hstuck _ (EngineStep.recv i rest s hab hp hw2)

theorem dropWhile_append_all (p : Char → Bool) (a b : GoStr)
    (h : ∀ c ∈ a, p c = true) : (a ++ b).dropWhile p = b.dropWhile p := by
  induction a with
  | nil => rfl
  | cons c rest ih =>
    rw [List.cons_append, List.dropWhile_cons, if_pos (h c (List.mem_cons_self _ _))]
    exact ih (fun x hx => h x (List.mem_cons.mpr (Or.inr hx)))

theorem takeWhile_append_all (p : Char → Bool) (a b : GoStr)
    (h : ∀ c ∈ a, p c = true) : (a ++ b).takeWhile p = a ++ b.takeWhile p := by
  induction a with
  | nil => rfl
  | cons c rest ih =>
    rw [List.cons_append, List.takeWhile_cons, if_pos (h c (List.mem_cons_self _ _)),
      ih (fun x hx => h x (List.mem_cons.mpr (Or.inr hx))), List.cons_append]

theorem goSplit_concat (x f : GoStr) (hf : '/' ∉ f) :
    goSplit (x ++ '/' :: f) = (x ++ ['/'], f) := by
  have hrev : (x ++ '/' :: f).reverse = f.reverse ++ '/' :: x.reverse := by
    rw [List.reverse_append, List.reverse_cons]
    simp
  have hall : ∀ c ∈ f.reverse, (fun c => decide (c ≠ '/')) c = true := by
    intro c hc
    simp only [decide_eq_true_eq]
    intro e
    exact hf (by rw [← e]; exact List.mem_reverse.mp hc)
  have hdrop : (x ++ '/' :: f).reverse.dropWhile (fun c => c ≠ '/') = '/' :: x.reverse := by
    rw [hrev, dropWhile_append_all _ _ _ hall, List.dropWhile_cons, if_neg (by simp)]
  have htake : (x ++ '/' :: f).reverse.takeWhile (fun c => c ≠ '/') = f.reverse := by
    rw [hrev, takeWhile_append_all _ _ _ hall, List.takeWhile_cons, if_neg (by simp)]
    simp
  unfold goSplit
  rw [hdrop, htake]
  simp

theorem goDir_concat (x f : GoStr) (hf : '/' ∉ f) :
    goDir (x ++ '/' :: f) = clean (x ++ ['/']) := by
  unfold goDir
  rw [goSplit_concat x f hf]

theorem goBase_concat (x f : GoStr) (hf : '/' ∉ f) (hfn : f ≠ []) :
    goBase (x ++ '/' :: f) = f := by
  have hne : x ++ '/' :: f ≠ ([] : GoStr) := by simp
  have hrev : (x ++ '/' :: f).reverse = f.reverse ++ '/' :: x.reverse := by
    rw [List.reverse_append, List.reverse_cons]
    simp
  have hall : ∀ c ∈ f.reverse, (fun c => decide (c ≠ '/')) c = true := by
    intro c hc
    simp only [decide_eq_true_eq]
    intro e
    exact hf (by rw [← e]; exact List.mem_reverse.mp hc)
  have hstrip : (x ++ '/' :: f).reverse.dropWhile (fun c => c = '/') =
      (x ++ '/' :: f).reverse := by
    cases hfr : f.reverse with
    | nil => exact absurd (by simpa using congrArg List.reverse hfr) hfn
    | cons c0 rest =>
      have hc0 : ¬ c0 = '/' := by
        intro e
        exact hf (List.mem_reverse.mp (by rw [hfr, e]; exact List.mem_cons_self _ _))
      rw [hrev, hfr, List.cons_append, List.dropWhile_cons, if_neg (by simp [hc0]),
        ← List.cons_append, ← hfr, ← hrev]
  have htake : (x ++ '/' :: f).reverse.takeWhile (fun c => c ≠ '/') = f.reverse := by
    rw [hrev, takeWhile_append_all _ _ _ hall, List.takeWhile_cons, if_neg (by simp)]
    simp
  unfold goBase
  rw [if_neg hne, hstrip, htake, List.reverse_reverse, if_neg hfn]

theorem interSlash_append_last (cs : List GoStr) (f : GoStr) (h : cs ≠ []) :
    interSlash (cs ++ [f]) = interSlash cs ++ '/' :: f := by
  induction cs with
  | nil => exact absurd rfl h
  | cons c rest ih =>
    cases rest with
    | nil => rfl
    | cons d rs =>
      have e : (c :: d :: rs) ++ [f] = c :: d :: (rs ++ [f]) := by simp
      rw [e, interSlash_cons_cons c d (rs ++ [f]), interSlash_cons_cons c d rs]
      have e2 : d :: (rs ++ [f]) = (d :: rs) ++ [f] := by simp
      rw [e2, ih (by simp)]
      simp

theorem goTrimPrefix_append (a b : GoStr) : goTrimPrefix (a ++ b) a = b := by
  unfold goTrimPrefix goHasPrefix
  rw [if_pos (List.isPrefixOf_iff_prefix.mpr (List.prefix_append a b)), List.drop_left]

theorem clean_rendered_rooted (out : List GoStr) (hne : out ≠ [])
    (h : ∀ c ∈ out, NormalComp c ∧ c ≠ dotdot) :
    clean ('/' :: interSlash out) = '/' :: interSlash out := by
  have hroot : isRooted ('/' :: interSlash out) = true := by simp [isRooted]
  rw [clean_def ('/' :: interSlash out), hroot]
  have hsplit : splitSlash ('/' :: interSlash out) = [] :: out := by
    rw [splitSlash_cons_slash, splitSlash_interSlash out hne (fun c hc => (h c hc).1.2.2)]
  have hstack : cleanStack true ('/' :: interSlash out) = out.reverse := by
    show (splitSlash ('/' :: interSlash out)).foldl (pushComp true) [] = out.reverse
    rw [hsplit, List.foldl_cons, pushComp_nil_comp, foldl_pushComp_names true out h []]
    simp
  rw [hstack, List.reverse_reverse]
  unfold renderPath
  rw [if_pos rfl]

/-- Claim C3: for every item and every destination backend, the path
written at the destination equals the item's `Path` with its prefix
removed, re-joined under the destination's configured prefix
(`specDestPath`), and this holds for every prefix string including the
empty one. For S3 it is the `PutReader` key, for GCS the inserted object
name, and for the local backend the argument of `os.Create` (also shown
as the `createFile` effect of `localPutFile`). -/
theorem putfile_dest_path (dstPre root : GoStr) (item : Item) :
    s3PutKey dstPre item = specDestPath dstPre item ∧
    gcsObjectName dstPre item = specDestPath dstPre item ∧
    localWrittenPath root item = specDestPath root item ∧
    (∀ cf, PutEffect.createFile (localWrittenPath root item) ∈
      (localPutFile root item none none cf).2) := by
  refine ⟨rfl, rfl, ?_, ?_⟩
  · show goJoin2 (goJoin2 root (goSplit (goTrimPrefix item.Path item.Prefix)).1)
      (goSplit (goTrimPrefix item.Path item.Prefix)).2 =
      goJoin2 root (goTrimPrefix item.Path item.Prefix)
    exact goJoin2_split root (goTrimPrefix item.Path item.Prefix)
  · intro cf
    show PutEffect.createFile (localWrittenPath root item) ∈
      [PutEffect.mkdirAll _, PutEffect.createFile _, PutEffect.copyContent,
       PutEffect.closeTarget, PutEffect.closeStream]
    exact List.mem_cons.mpr (Or.inr (List.mem_cons_self _ _))

/-- Counterexample to claim C4: the GCS backend's PutFile returns success
without ever closing the item's content stream — no `closeStream` effect
occurs on its success path (nor on its failure path, which kills the
process via log.Fatalf instead of returning). -/
theorem gcs_putfile_no_close :
    (gcsPutFile ['p'] ⟨['p'], ['p', '/', 'a'], 3⟩ none).1 = PutResult.ok ∧
    PutEffect.closeStream ∉ (gcsPutFile ['p'] ⟨['p'], ['p', '/', 'a'], 3⟩ none).2 ∧
    (gcsPutFile ['p'] ⟨['p'], ['p', '/', 'a'], 3⟩ (some ['e'])).1 = PutResult.fatal ['e'] ∧
    PutEffect.closeStream ∉ (gcsPutFile ['p'] ⟨['p'], ['p', '/', 'a'], 3⟩ (some ['e'])).2 := by
  refine ⟨rfl, ?_, rfl, ?_⟩ <;> decide

/-- Claim C4 amended: S3 and Local `PutFile` close the item's stream
before returning under every outcome (success, returned error, skip of
the copy result), while the GCS `PutFile` never emits a close — and on a
failed insert it ends the process fatally rather than returning. -/
theorem putfile_close_stream (pre root : GoStr) (item : Item)
    (putErr mkdirErr createErr insertErr : Option GoStr) (copyFails : Bool) :
    PutEffect.closeStream ∈ (s3PutFile pre item putErr).2 ∧
    PutEffect.closeStream ∈ (localPutFile root item mkdirErr createErr copyFails).2 ∧
    PutEffect.closeStream ∉ (gcsPutFile pre item insertErr).2 ∧
    (∀ e, (gcsPutFile pre item (some e)).1 = PutResult.fatal e) := by
  refine ⟨?_, ?_, ?_, fun e => rfl⟩
  · cases putErr <;> simp [s3PutFile]
  · cases mkdirErr <;> cases createErr <;> simp [localPutFile]
  · cases insertErr <;> simp [gcsPutFile]

/-- Claim C6 at its failing input: in `listBucketFiles` (s3put.go) a
`bucket.List` error is logged, but control then reaches
`range resp.Contents` with the response nil, so the producer panics with
a nil-pointer dereference instead of ending the sequence short. The
later `S3Storage.ListFiles` revisions (storage.go, part_003) implement
the claimed behavior: on a list error they log and return, closing the
channel with the items discovered so far. -/
theorem listbucketfiles_panics_on_error :
    listBucketFiles [] none (some ['e']) = Except.error GoPanic.nilPointerDeref ∧
    s3ListFilesV2 (fun _ => Except.error ['e']) (fun _ => none) [] 5 =
      ([], [[]], ListExit.listError) ∧
    s3ListFiles (fun _ => Except.error ['e']) (fun _ => none) [] 5 =
      ([], [[]], ListExit.listError) := by
  exact ⟨rfl, rfl, rfl⟩

/-- Claim C7 at its failing input: the storage.go `S3Storage.ListFiles`
logs a `GetReader` error but still sends the item, carrying a nil
ReadCloser — an item with an unopened stream IS yielded. The part_003
revision and the local walk skip such items, as the claim states. -/
theorem s3listfiles_v2_yields_nil_stream :
    s3ListFilesV2 (fun _ => Except.ok ⟨[⟨['k'], 7⟩], false⟩) (fun _ => none) ['p'] 5 =
      ([⟨['p'], ['k'], 0, none⟩], [[]], ListExit.noMorePages) ∧
    s3ListFiles (fun _ => Except.ok ⟨[⟨['k'], 7⟩], false⟩) (fun _ => none) ['p'] 5 =
      ([], [[]], ListExit.noMorePages) ∧
    walkVisit ['r'] ['a'] (FsTree.file 5 false) = [] ∧
    gcsPageItems ['p'] (fun _ => none) [⟨['a'], 1, ['m']⟩] = [] := by
  exact ⟨rfl, rfl, rfl, rfl⟩

/-- Claim C9: calling the copy engine with concurrency 0 spawns no
workers, so `wg.Wait()` returns at once: the initial state is already
stuck, nothing was attempted even though the stream is non-empty, and no
error is reported (the engine has no error result and the aborted flag
stays false). This holds for the 3-argument `CopyItems` in the sources
under either error policy. -/
theorem copyitems_zero_concurrency (coe : Bool) (outcome : Nat → PutOutcome)
    (stream : List Nat) :
    Stuck coe outcome (initState 0 stream) ∧
    (initState 0 stream).attempted = [] ∧
    (initState 0 stream).pending = stream ∧
    (initState 0 stream).aborted = false := by
  refine ⟨?_, rfl, rfl, rfl⟩
  intro s' hst
  cases hst with
  | recv i rest u ha hp hw => exact absurd hw (by simp [initState])
  | finishOk i l1 l2 u ha hin hout => exact absurd hin (by simp [initState])
  | finishErrContinue i l1 l2 u ha hin hout hcoe => exact absurd hin (by simp [initState])
  | finishErrAbort i l1 l2 u ha hin hout hcoe => exact absurd hin (by simp [initState])
  | finishFatal i l1 l2 u ha hin hout => exact absurd hin (by simp [initState])
  | exit u ha hp hw => exact absurd hw (by simp [initState])

/-- Claim C10: `LocalStorage.PutFile` returns success whenever `MkdirAll`
and `Create` succeed, no matter whether the `io.Copy` content transfer
fails — the copy's result is discarded, so the error result never
reflects the transfer. -/
theorem local_putfile_ignores_copy_error (root : GoStr) (item : Item)
    (mkdirErr createErr : Option GoStr) :
    ((localPutFile root item none none true).1 = PutResult.ok ∧
     (localPutFile root item none none false).1 = PutResult.ok) ∧
    (localPutFile root item mkdirErr createErr true).1 =
      (localPutFile root item mkdirErr createErr false).1 := by
  refine ⟨⟨rfl, rfl⟩, ?_⟩
  cases mkdirErr <;> cases createErr <;> rfl

/-- Counterexample to claim C8 as stated: for the single-file root
`/data/a.txt` the yielded item has prefix `/data` (the parent directory,
as claimed) but its relative path — `Path` minus prefix under
`strings.TrimPrefix` — is `/a.txt`, the base name preceded by the path
separator, not the base name `a.txt`. -/
theorem local_single_file_relpath_counterexample :
    localListFiles ['/'] "/data/a.txt".toList (some (FsTree.file 10 true)) =
      [⟨"/data".toList, "/data/a.txt".toList, 10, some 0⟩] ∧
    goTrimPrefix "/data/a.txt".toList "/data".toList = "/a.txt".toList ∧
    goBase "/data/a.txt".toList = "a.txt".toList ∧
    "/a.txt".toList ≠ "a.txt".toList := by
  refine ⟨?_, ?_, ?_, ?_⟩ <;> decide

/-- Claim C8 amended: a local enumeration root that is a single
non-directory file yields exactly one item whose prefix is the file's
parent directory (`filepath.Dir`); its relative path (`Path` minus
prefix under TrimPrefix) is the path separator followed by the file's
base name — the bare base name only when the parent directory is the
root `/`. An empty directory root yields the empty sequence, not an
error. Stated for any absolute, already-clean root spelled as its
component list `cs ++ [f]`. -/
theorem local_single_file_item (cwd : GoStr) (cs : List GoStr) (f : GoStr)
    (sz : Int) (op : Bool)
    (hcs : ∀ c ∈ cs, NormalComp c ∧ c ≠ dotdot)
    (hf : NormalComp f) (hfd : f ≠ dotdot) :
    localListFiles cwd ('/' :: interSlash (cs ++ [f])) (some (FsTree.file sz op)) =
      [⟨goDir ('/' :: interSlash (cs ++ [f])), '/' :: interSlash (cs ++ [f]), sz, some 0⟩] ∧
    goDir ('/' :: interSlash (cs ++ [f])) =
      (if cs = [] then ['/'] else '/' :: interSlash cs) ∧
    goTrimPrefix ('/' :: interSlash (cs ++ [f]))
        (goDir ('/' :: interSlash (cs ++ [f]))) =
      (if cs = [] then f else '/' :: f) ∧
    goBase ('/' :: interSlash (cs ++ [f])) = f ∧
    (∀ cwd2 root2, localListFiles cwd2 root2 (some (FsTree.dir [])) = []) := by
  have hfs : '/' ∉ f := hf.2.2
  have hfn : f ≠ [] := hf.1
  have hall : ∀ c ∈ cs ++ [f], NormalComp c ∧ c ≠ dotdot := by
    intro c hc
    rcases List.mem_append.mp hc with h | h
    · exact hcs c h
    · rw [List.mem_singleton.mp h]
      exact ⟨hf, hfd⟩
  have hclean : clean ('/' :: interSlash (cs ++ [f])) = '/' :: interSlash (cs ++ [f]) :=
    clean_rendered_rooted (cs ++ [f]) (by simp) hall
  have hrooted : isRooted ('/' :: interSlash (cs ++ [f])) = true := by simp [isRooted]
  have habs : goAbs cwd ('/' :: interSlash (cs ++ [f])) = '/' :: interSlash (cs ++ [f]) := by
    unfold goAbs
    rw [if_pos hrooted]
    exact hclean
  have hdir3 : goDir ('/' :: interSlash (cs ++ [f])) =
        (if cs = [] then ['/'] else '/' :: interSlash cs) ∧
      goTrimPrefix ('/' :: interSlash (cs ++ [f]))
        (goDir ('/' :: interSlash (cs ++ [f]))) = (if cs = [] then f else '/' :: f) ∧
      goBase ('/' :: interSlash (cs ++ [f])) = f := by
    cases cs with
    | nil =>
      rw [if_pos rfl, if_pos rfl]
      have e : ('/' :: interSlash ([] ++ [f]) : GoStr) = [] ++ '/' :: f := rfl
      rw [e]
      have hd : goDir ([] ++ '/' :: f : GoStr) = ['/'] := by
        rw [goDir_concat [] f hfs]
        decide
      refine ⟨hd, ?_, goBase_concat [] f hfs hfn⟩
      rw [hd]
      have e2 : ([] ++ '/' :: f : GoStr) = ['/'] ++ f := rfl
      rw [e2, goTrimPrefix_append]
    | cons c cs2 =>
      rw [if_neg (by simp), if_neg (by simp)]
      have hinter : interSlash ((c :: cs2) ++ [f]) = interSlash (c :: cs2) ++ '/' :: f :=
        interSlash_append_last (c :: cs2) f (by simp)
      have e : ('/' :: interSlash ((c :: cs2) ++ [f]) : GoStr) =
          ('/' :: interSlash (c :: cs2)) ++ '/' :: f := by
        rw [hinter]
        rfl
      rw [e]
      have hd : goDir (('/' :: interSlash (c :: cs2)) ++ '/' :: f) =
          '/' :: interSlash (c :: cs2) := by
        rw [goDir_concat _ f hfs, clean_trailing_slash _ (by simp),
          clean_rendered_rooted (c :: cs2) (by simp) hcs]
      refine ⟨hd, ?_, goBase_concat _ f hfs hfn⟩
      rw [hd, goTrimPrefix_append]
  refine ⟨?_, hdir3.1, hdir3.2.1, hdir3.2.2, fun cwd2 root2 => rfl⟩
  show ([⟨goDir (goAbs cwd ('/' :: interSlash (cs ++ [f]))),
      goAbs cwd ('/' :: interSlash (cs ++ [f])), sz, some 0⟩] : List StreamItem) =
    [⟨goDir ('/' :: interSlash (cs ++ [f])), '/' :: interSlash (cs ++ [f]), sz, some 0⟩]
  rw [habs]

/-- Witness for the amended claim C8 at the concrete root /data/a.txt
(components ["data"], base "a.txt"). -/
theorem local_single_file_item_witness :
    goTrimPrefix ('/' :: interSlash (["data".toList] ++ ["a.txt".toList]))
        (goDir ('/' :: interSlash (["data".toList] ++ ["a.txt".toList]))) =
      (if (["data".toList] : List GoStr) = [] then "a.txt".toList
       else '/' :: "a.txt".toList) ∧
    goBase ('/' :: interSlash (["data".toList] ++ ["a.txt".toList])) = "a.txt".toList := by
  have h := local_single_file_item "/".toList ["data".toList] "a.txt".toList 10 true
    (by
      intro c hc
      rw [List.mem_singleton.mp hc]
      exact ⟨⟨by decide, by decide, by decide⟩, by decide⟩)
    ⟨by decide, by decide, by decide⟩ (by decide)
  exact ⟨h.2.2.1, h.2.2.2.1⟩

/-- Claim C1 (the failure policy is modelled from the spec, see
`EngineStep`): with continueOnError = false, in every reachable state of
a run (a) the attempt log followed by the undispatched items is exactly
the stream — an item not yet dispatched to a worker has never been
attempted; (b) while the run is alive, every completed PutFile call had
succeeded, i.e. the first failing call flips the run to aborted in the
same step; and (c) an aborted state has no successor: the whole run
terminates immediately, no remaining item is drained. -/
theorem copyitems_fail_fast (outcome : Nat → PutOutcome) (n : Nat)
    (stream : List Nat) (s : EngineState)
    (h : EngineReach false outcome n stream s) :
    s.attempted ++ s.pending = stream ∧
    (s.aborted = false → ∀ i ∈ s.attempted, i ∉ s.inflight → outcome i = PutOutcome.ok) ∧
    (s.aborted = true → Stuck false outcome s) :=
  ⟨engineReach_attempted_pending false outcome n stream s h,
   engineReach_completed_ok outcome n stream s h,
   fun hab => aborted_stuck false outcome s hab⟩

/-- Witness for C1: one worker, stream [0, 1], every put failing; after
item 0 is dispatched its failure aborts the run with item 1 still
pending, and the aborted state is stuck. -/
theorem copyitems_fail_fast_witness :
    ((⟨[1], 0, [], 0, [0], true⟩ : EngineState).attempted ++
      (⟨[1], 0, [], 0, [0], true⟩ : EngineState).pending = [0, 1]) ∧
    Stuck false (fun _ => PutOutcome.retErr) ⟨[1], 0, [], 0, [0], true⟩ := by
  have h0 : EngineReach false (fun _ => PutOutcome.retErr) 1 [0, 1]
      (initState 1 [0, 1]) := EngineReach.init
  have h1 : EngineReach false (fun _ => PutOutcome.retErr) 1 [0, 1]
      ⟨[1], 0, [0], 0, [0], false⟩ :=
    EngineReach.step h0 (EngineStep.recv 0 [1] (initState 1 [0, 1]) rfl rfl (by decide))
  have h2 : EngineReach false (fun _ => PutOutcome.retErr) 1 [0, 1]
      ⟨[1], 0, [], 0, [0], true⟩ :=
    EngineReach.step h1 (EngineStep.finishErrAbort 0 [] [] _ rfl rfl rfl rfl)
  have hr := copyitems_fail_fast (fun _ => PutOutcome.retErr) 1 [0, 1] _ h2
  exact ⟨hr.1, hr.2.2 rfl⟩

/-- Counterexample to claim C2 as stated: with the GCS destination a
failed insert runs log.Fatalf inside PutFile (`gcsPutFile` yields a
fatal result), so even under continueOnError = true the run dies at the
first failure: a reachable stuck state of a 2-item run exists whose
attempt log covers only the first item — the engine neither completes
normally nor attempts every item. -/
theorem copyitems_continue_gcs_counterexample :
    (gcsPutFile ['p'] ⟨['p'], ['a'], 0⟩ (some ['e'])).1 = PutResult.fatal ['e'] ∧
    ∃ s : EngineState,
      EngineReach true (fun _ => PutOutcome.fatal) 1 [0, 1] s ∧
      Stuck true (fun _ => PutOutcome.fatal) s ∧ s.attempted ≠ [0, 1] := by
  refine ⟨rfl, ⟨[1], 0, [], 0, [0], true⟩, ?_, ?_, by decide⟩
  · exact EngineReach.step
      (EngineReach.step EngineReach.init
        (EngineStep.recv 0 [1] (initState 1 [0, 1]) rfl rfl (by decide)))
      (EngineStep.finishFatal 0 [] [] _ rfl rfl rfl)
  · exact aborted_stuck true _ _ rfl

/-- Claim C2 amended: with continueOnError = true, at least one worker,
and a destination whose PutFile always returns (no log.Fatalf outcome —
true of the S3 and local backends, not of GCS), every run terminates
(every step strictly decreases `engineMeasure`) and every terminal
(stuck) reachable state has all workers exited with the attempt log
exactly the stream: each item was passed to PutFile exactly once however
many writes failed. -/
theorem copyitems_continue_completes (outcome : Nat → PutOutcome) (n : Nat)
    (stream : List Nat) (hn : 1 ≤ n) (hfat : ∀ i, outcome i ≠ PutOutcome.fatal) :
    (∀ s, EngineReach true outcome n stream s → Stuck true outcome s →
       s.attempted = stream ∧ s.exited = n) ∧
    (∀ s s', EngineStep true outcome s s' → engineMeasure s' < engineMeasure s) ∧
    (∀ pre item putErr m, (s3PutFile pre item putErr).1 ≠ PutResult.fatal m) ∧
    (∀ root item me ce cf m, (localPutFile root item me ce cf).1 ≠ PutResult.fatal m) := by
  refine ⟨?_, fun s s' h => engineStep_measure true outcome s s' h, ?_, ?_⟩
  · intro s hreach hstuck
    have hab : s.aborted = false := engineReach_not_aborted outcome n stream s hfat hreach
    obtain ⟨hin, hwait⟩ := engineStuck_shape outcome s hfat hab hstuck
    have hsum := engineReach_workers true outcome n stream s hreach hab
    rw [hin, hwait] at hsum
    simp at hsum
    have hex : 0 < s.exited := by omega
    have hpend := engineReach_exited_pending true outcome n stream s hreach hex
    have hap := engineReach_attempted_pending true outcome n stream s hreach
    rw [hpend] at hap
    simp at hap
    exact ⟨hap, hsum⟩
  · intro pre item putErr m
    cases putErr <;> simp [s3PutFile]
  · intro root item me ce cf m
    cases me <;> cases ce <;> simp [localPutFile]

/-- Witness for the amended claim C2: one worker, stream [5], an
always-succeeding destination; the run reaches a stuck state whose
attempt log is the whole stream and whose single worker has exited. -/
theorem copyitems_continue_completes_witness :
    (⟨[], 0, [], 1, [5], false⟩ : EngineState).attempted = [5] ∧
    (⟨[], 0, [], 1, [5], false⟩ : EngineState).exited = 1 := by
  have h := copyitems_continue_completes (fun _ => PutOutcome.ok) 1 [5]
    (by decide) (fun i => by simp)
  refine h.1 ⟨[], 0, [], 1, [5], false⟩ ?_ ?_
  · exact EngineReach.step (EngineReach.step (EngineReach.step EngineReach.init
      (EngineStep.recv 5 [] (initState 1 [5]) rfl rfl (by decide)))
      (EngineStep.finishOk 5 [] [] _ rfl rfl rfl))
      (EngineStep.exit _ rfl rfl (by decide))
  · intro s' hst
    cases hst with
    | recv i rest u ha hp hw => exact absurd hp (by simp)
    | finishOk i l1 l2 u ha hin hout => exact absurd hin (by simp)
    | finishErrContinue i l1 l2 u ha hin hout hcoe => exact absurd hin (by simp)
    | finishErrAbort i l1 l2 u ha hin hout hcoe => exact absurd hin (by simp)
    | finishFatal i l1 l2 u ha hin hout => exact absurd hin (by simp)
    | exit u ha hp hw => exact absurd hw (by simp)

theorem s3PageItems_marker (pre : GoStr) (g : GoStr → Option Nat)
    (hg : ∀ k, g k ≠ none) (marker : GoStr) (objs : List S3Obj) :
    (s3PageItems pre g marker objs).2 = (objs.map S3Obj.key).getLastD marker := by
  induction objs generalizing marker with
  | nil => rfl
  | cons obj rest ih =>
    cases hgo : g obj.key with
    | none => exact absurd hgo (hg obj.key)
    | some rc =>
      unfold s3PageItems
      rw [hgo]
      simp only []
      rw [ih obj.key, List.map_cons, List.getLastD_cons]

theorem s3ListLoop_err (list : GoStr → Except GoStr S3Page) (g : GoStr → Option Nat)
    (pre : GoStr) (fuel : Nat) (marker : GoStr) (e : GoStr)
    (h : list marker = Except.error e) :
    s3ListLoop list g pre (fuel + 1) marker = ([], [marker], ListExit.listError) := by
  conv_lhs => rw [s3ListLoop]
  rw [h]

theorem s3ListLoop_done (list : GoStr → Except GoStr S3Page) (g : GoStr → Option Nat)
    (pre : GoStr) (fuel : Nat) (marker : GoStr) (resp : S3Page)
    (h : list marker = Except.ok resp) (ht : resp.isTruncated = false) :
    s3ListLoop list g pre (fuel + 1) marker =
      ((s3PageItems pre g marker resp.contents).1, [marker], ListExit.noMorePages) := by
  conv_lhs => rw [s3ListLoop]
  rw [h]
  simp [ht]

theorem s3ListLoop_trunc (list : GoStr → Except GoStr S3Page) (g : GoStr → Option Nat)
    (pre : GoStr) (fuel : Nat) (marker : GoStr) (resp : S3Page)
    (h : list marker = Except.ok resp) (ht : resp.isTruncated = true) :
    s3ListLoop list g pre (fuel + 1) marker =
      ((s3PageItems pre g marker resp.contents).1 ++
         (s3ListLoop list g pre fuel (s3PageItems pre g marker resp.contents).2).1,
       marker :: (s3ListLoop list g pre fuel (s3PageItems pre g marker resp.contents).2).2.1,
       (s3ListLoop list g pre fuel (s3PageItems pre g marker resp.contents).2).2.2) := by
  conv_lhs => rw [s3ListLoop]
  rw [h]
  simp [ht]

theorem s3ListLoop_markers (list : GoStr → Except GoStr S3Page)
    (g : GoStr → Option Nat) (pre : GoStr) (hg : ∀ k, g k ≠ none) :
    ∀ (fuel : Nat) (marker : GoStr),
      (0 < fuel → ((s3ListLoop list g pre fuel marker).2.1)[0]? = some marker) ∧
      (∀ k mk, ((s3ListLoop list g pre fuel marker).2.1)[k]? = some mk →
        ((s3ListLoop list g pre fuel marker).2.1)[k + 1]? ≠ none →
        ∃ resp, list mk = Except.ok resp ∧ resp.isTruncated = true ∧
          ((s3ListLoop list g pre fuel marker).2.1)[k + 1]? =
            some ((resp.contents.map S3Obj.key).getLastD mk)) ∧
      ((s3ListLoop list g pre fuel marker).2.2 = ListExit.noMorePages →
        ∃ mk resp, ((s3ListLoop list g pre fuel marker).2.1).getLast? = some mk ∧
          list mk = Except.ok resp ∧ resp.isTruncated = false) ∧
      ((s3ListLoop list g pre fuel marker).2.2 = ListExit.noMorePages →
        (s3ListLoop list g pre fuel marker).2.1 ≠ []) := by
  intro fuel
  induction fuel with
  | zero =>
    intro marker
    refine ⟨fun h => absurd h (by simp), ?_, ?_, ?_⟩
    · intro k mk hk _
      simp [show (s3ListLoop list g pre 0 marker).2.1 = [] from rfl] at hk
    · intro hx
      simp [show (s3ListLoop list g pre 0 marker).2.2 = ListExit.outOfFuel from rfl] at hx
    · intro hx
      simp [show (s3ListLoop list g pre 0 marker).2.2 = ListExit.outOfFuel from rfl] at hx
  | succ fuel ih =>
    intro marker
    cases hlist : list marker with
    | error e =>
      rw [s3ListLoop_err list g pre fuel marker e hlist]
      refine ⟨fun _ => rfl, ?_, ?_, ?_⟩
      · intro k mk hk hk1
        exact absurd (show ([marker] : List GoStr)[k + 1]? = none from rfl) hk1
      · intro hx
        exact absurd hx (by simp)
      · intro hx
        exact absurd hx (by simp)
    | ok resp =>
      cases htr : resp.isTruncated with
      | false =>
        rw [s3ListLoop_done list g pre fuel marker resp hlist htr]
        refine ⟨fun _ => rfl, ?_, ?_, ?_⟩
        · intro k mk hk hk1
          exact absurd (show ([marker] : List GoStr)[k + 1]? = none from rfl) hk1
        · intro _
          exact ⟨marker, resp, rfl, hlist, htr⟩
        · intro _
          simp
      | true =>
        rw [s3ListLoop_trunc list g pre fuel marker resp hlist htr]
        have hm2 : (s3PageItems pre g marker resp.contents).2 =
            (resp.contents.map S3Obj.key).getLastD marker :=
          s3PageItems_marker pre g hg marker resp.contents
        have ihm := ih (s3PageItems pre g marker resp.contents).2
        refine ⟨fun _ => by simp, ?_, ?_, ?_⟩
        · intro k mk hk hk1
          cases k with
          | zero =>
            have hmk : marker = mk := by
              simpa using hk
            cases hfuel : fuel with
            | zero =>
              rw [hfuel] at hk1
              exact absurd (by simp [s3ListLoop]) hk1
            | succ fuel2 =>
              rw [hmk] at hlist
              refine ⟨resp, hlist, ⟨htr, ?_⟩⟩
              have h0 := ihm.1 (by rw [hfuel]; simp)
              show ((marker :: (s3ListLoop list g pre (fuel2 + 1)
                  (s3PageItems pre g marker resp.contents).2).2.1 : List GoStr))[0 + 1]? =
                some ((resp.contents.map S3Obj.key).getLastD mk)
              rw [← hfuel, List.getElem?_cons_succ, h0, hm2, hmk]
          | succ k2 =>
            have hk' : ((s3ListLoop list g pre fuel
                (s3PageItems pre g marker resp.contents).2).2.1)[k2]? = some mk := by
              simpa using hk
            have hk1' : ((s3ListLoop list g pre fuel
                (s3PageItems pre g marker resp.contents).2).2.1)[k2 + 1]? ≠ none := by
              simpa using hk1
            obtain ⟨r2, hr2, ht2, hv2⟩ := ihm.2.1 k2 mk hk' hk1'
            refine ⟨r2, hr2, ht2, ?_⟩
            simpa using hv2
        · intro hx
          obtain ⟨mk, r2, hlast, hr2, ht2⟩ := ihm.2.2.1 hx
          refine ⟨mk, r2, ?_, hr2, ht2⟩
          have hne := ihm.2.2.2 hx
          cases hms : (s3ListLoop list g pre fuel
              (s3PageItems pre g marker resp.contents).2).2.1 with
          | nil => exact absurd hms hne
          | cons a l =>
            rw [hms] at hlast
            show ((marker :: a :: l : List GoStr)).getLast? = some mk
            rw [List.getLast?_cons_cons]
            exact hlast
        · intro _
          simp

/-- Counterexample to claim C5 as stated: the GCS enumeration issues a
single list request and ignores the reply's continuation signal — here
the backend reports a non-empty nextPageToken (further pages remain),
yet the enumeration ends after the one page, so object-store enumeration
is not universally paginated with a marker loop. -/
theorem gcs_unpaginated_counterexample :
    gcsListFiles ['p'] (Except.ok ⟨[⟨['a'], 1, ['m']⟩], ['t']⟩) (fun _ => some 0) =
      [⟨['p'], ['a'], 1, some 0⟩] ∧
    (⟨[⟨['a'], 1, ['m']⟩], ['t']⟩ : GcsObjects).nextPageToken ≠ [] := by
  exact ⟨rfl, by decide⟩

/-- Claim C5 amended: the S3 enumeration is paginated — the first request
carries the empty marker, each further request's marker is the last key
of the previous page (given that every GetReader succeeds, since a
skipped object also skips the marker update), and the loop ends normally
exactly at the first page whose IsTruncated is false (a list error also
ends it, logged, per C6). The GCS enumeration is not paginated: it
issues a single request whose result fully determines the item sequence,
with the reply's nextPageToken ignored. -/
theorem list_pagination (list : GoStr → Except GoStr S3Page)
    (g : GoStr → Option Nat) (pre : GoStr) (hg : ∀ k, g k ≠ none) :
    (∀ (fuel : Nat) (marker : GoStr),
      (0 < fuel → ((s3ListLoop list g pre fuel marker).2.1)[0]? = some marker) ∧
      (∀ k mk, ((s3ListLoop list g pre fuel marker).2.1)[k]? = some mk →
        ((s3ListLoop list g pre fuel marker).2.1)[k + 1]? ≠ none →
        ∃ resp, list mk = Except.ok resp ∧ resp.isTruncated = true ∧
          ((s3ListLoop list g pre fuel marker).2.1)[k + 1]? =
            some ((resp.contents.map S3Obj.key).getLastD mk)) ∧
      (((s3ListLoop list g pre fuel marker).2.2 = ListExit.noMorePages →
        ∃ mk resp, ((s3ListLoop list g pre fuel marker).2.1).getLast? = some mk ∧
          list mk = Except.ok resp ∧ resp.isTruncated = false))) ∧
    (∀ (pre2 : GoStr) (items : List GcsObj) (tok1 tok2 : GoStr)
       (g2 : GoStr → Option Nat),
      gcsListFiles pre2 (Except.ok ⟨items, tok1⟩) g2 =
        gcsListFiles pre2 (Except.ok ⟨items, tok2⟩) g2) := by
  refine ⟨?_, fun pre2 items tok1 tok2 g2 => rfl⟩
  intro fuel marker
  have h := s3ListLoop_markers list g pre hg fuel marker
  exact ⟨h.1, h.2.1, h.2.2.1⟩

/-- Witness for the amended claim C5 at a concrete two-page backend: the
first request of a fuel-3 run uses the empty marker. -/
theorem list_pagination_witness :
    ((s3ListLoop
        (fun m => if m = [] then Except.ok ⟨[⟨['a'], 1⟩], true⟩
                  else Except.ok ⟨[⟨['b'], 2⟩], false⟩)
        (fun _ => some 0) ['p'] 3 []).2.1)[0]? = some [] := by
  have h := list_pagination
    (fun m => if m = [] then Except.ok ⟨[⟨['a'], 1⟩], true⟩
              else Except.ok ⟨[⟨['b'], 2⟩], false⟩)
    (fun _ => some 0) ['p'] (fun k => by simp)
  exact (h.1 3 []).1 (by decide)

end S3Put
